import Mathlib

/-!
Verification of the core rendering engine of `c-ray.c` (a small
multithreaded raytracer).  C `double` arithmetic is modeled over `ℝ`
(`Real.sqrt` for `sqrt`, `Real.rpow` for `pow`); the scanline-partition
arithmetic of `cray_mt` uses only `+` and `/` on nonnegative values, so it
is modeled exactly over `ℚ` with `Int.floor` for the truncating
`(int)` cast; C `int` indices and pixel words are modeled by `ℕ`/`ℤ`.
-/

namespace CRay

/-- `struct vec3 { double x, y, z; }`. -/
@[ext]
structure Vec3 where
  x : ℝ
  y : ℝ
  z : ℝ

instance : Zero Vec3 := ⟨⟨0, 0, 0⟩⟩

instance : Add Vec3 := ⟨fun a b => ⟨a.x + b.x, a.y + b.y, a.z + b.z⟩⟩

instance : SMul ℝ Vec3 := ⟨fun r v => ⟨r * v.x, r * v.y, r * v.z⟩⟩

@[simp] theorem Vec3.zero_x : (0 : Vec3).x = 0 := rfl

@[simp] theorem Vec3.zero_y : (0 : Vec3).y = 0 := rfl

@[simp] theorem Vec3.zero_z : (0 : Vec3).z = 0 := rfl

@[simp] theorem Vec3.add_x (a b : Vec3) : (a + b).x = a.x + b.x := rfl

@[simp] theorem Vec3.add_y (a b : Vec3) : (a + b).y = a.y + b.y := rfl

@[simp] theorem Vec3.add_z (a b : Vec3) : (a + b).z = a.z + b.z := rfl

@[simp] theorem Vec3.smul_x (r : ℝ) (v : Vec3) : (r • v).x = r * v.x := rfl

@[simp] theorem Vec3.smul_y (r : ℝ) (v : Vec3) : (r • v).y = r * v.y := rfl

@[simp] theorem Vec3.smul_z (r : ℝ) (v : Vec3) : (r • v).z = r * v.z := rfl

instance : AddCommMonoid Vec3 where
  add_assoc a b c := by ext <;> simp <;> ring
  zero_add a := by ext <;> simp
  add_zero a := by ext <;> simp
  add_comm a b := by ext <;> simp <;> ring
  nsmul := nsmulRec

/-- `struct ray { struct vec3 orig, dir; }`. -/
structure Ray where
  orig : Vec3
  dir : Vec3

/-- `struct material { struct vec3 col; double spow; double refl; }`. -/
structure Material where
  col : Vec3
  spow : ℝ
  refl : ℝ

/-- `struct sphere` (without the intrusive `next` pointer: sphere lists are
modeled as `List Sphere`). -/
structure Sphere where
  pos : Vec3
  rad : ℝ
  mat : Material

/-- `struct spoint`: position, normal, view reflection, parametric distance. -/
structure Spoint where
  pos : Vec3
  normal : Vec3
  vref : Vec3
  dist : ℝ

/-- `struct camera`. -/
structure Camera where
  pos : Vec3
  targ : Vec3
  fov : ℝ

/-- `#define RAY_MAG 1000.0`. -/
def RAY_MAG : ℝ := 1000.0

/-- `#define MAX_RAY_DEPTH 5`. -/
def MAX_RAY_DEPTH : ℕ := 5

/-- `#define FOV 0.78539816`. -/
def FOV : ℝ := 0.78539816

/-- `#define HALF_FOV (FOV * 0.5)`. -/
noncomputable def HALF_FOV : ℝ := FOV * 0.5

/-- `#define ERR_MARGIN 1e-6`. -/
def ERR_MARGIN : ℝ := 1e-6

/-- `#define NRAN 1024`. -/
def NRAN : ℕ := 1024

/-- `#define MASK (NRAN - 1)`. -/
def MASK : ℕ := NRAN - 1

/-- `#define RSHIFT`: the file's default (big-endian) branch uses red shift 0. -/
def RSHIFT : ℕ := 0

/-- `#define GSHIFT 8` (identical in both byte orders). -/
def GSHIFT : ℕ := 8

/-- `#define BSHIFT`: the file's default (big-endian) branch uses blue shift 16. -/
def BSHIFT : ℕ := 16

/-- The `DOT(a, b)` macro. -/
def dotv (a b : Vec3) : ℝ := a.x * b.x + a.y * b.y + a.z * b.z

/-- The `NORMALIZE(a)` macro: divide every component by `sqrt(DOT(a,a))`. -/
noncomputable def normalize (v : Vec3) : Vec3 :=
  let len := Real.sqrt (dotv v v)
  ⟨v.x / len, v.y / len, v.z / len⟩

/-- `reflect(v, n)`: `res = -(2 * (v·n) * n - v)`, componentwise as in the source. -/
def reflect (v n : Vec3) : Vec3 :=
  let dot := v.x * n.x + v.y * n.y + v.z * n.z
  ⟨-(2.0 * dot * n.x - v.x), -(2.0 * dot * n.y - v.y), -(2.0 * dot * n.z - v.z)⟩

/-- `cross_product(v1, v2)`. -/
def cross_product (v1 v2 : Vec3) : Vec3 :=
  ⟨v1.y * v2.z - v1.z * v2.y, v1.z * v2.x - v1.x * v2.z, v1.x * v2.y - v1.y * v2.x⟩

/-- The global state read by the renderer: `xres`, `yres`, `rays_per_pixel`,
`aspect`, `obj_list` (the spheres after the dummy head node), `lights`
(the first `lnum` entries of the light array), `cam`, and the jitter tables
`urand`/`irand` (total functions standing for the 1024-entry arrays). -/
structure Ctx where
  xres : ℕ
  yres : ℕ
  rays_per_pixel : ℕ
  aspect : ℝ
  obj_list : List Sphere
  lights : List Vec3
  cam : Camera
  urand : ℕ → Vec3
  irand : ℕ → ℕ

/-- The coefficient `a` of the intersection quadratic in `ray_sphere`:
`SQ(ray.dir.x) + SQ(ray.dir.y) + SQ(ray.dir.z)`. -/
def isect_a (ray : Ray) : ℝ := ray.dir.x ^ 2 + ray.dir.y ^ 2 + ray.dir.z ^ 2

/-- The coefficient `b` of the intersection quadratic in `ray_sphere`. -/
def isect_b (sph : Sphere) (ray : Ray) : ℝ :=
  2.0 * ray.dir.x * (ray.orig.x - sph.pos.x) +
    2.0 * ray.dir.y * (ray.orig.y - sph.pos.y) +
    2.0 * ray.dir.z * (ray.orig.z - sph.pos.z)

/-- The coefficient `c` of the intersection quadratic in `ray_sphere`. -/
def isect_c (sph : Sphere) (ray : Ray) : ℝ :=
  sph.pos.x ^ 2 + sph.pos.y ^ 2 + sph.pos.z ^ 2 +
    ray.orig.x ^ 2 + ray.orig.y ^ 2 + ray.orig.z ^ 2 +
    2.0 * (-sph.pos.x * ray.orig.x - sph.pos.y * ray.orig.y - sph.pos.z * ray.orig.z) -
    sph.rad ^ 2

/-- The discriminant `d = SQ(b) - 4.0 * a * c` in `ray_sphere`. -/
def isect_d (sph : Sphere) (ray : Ray) : ℝ :=
  isect_b sph ray ^ 2 - 4.0 * isect_a ray * isect_c sph ray

/-- The root `t1 = (-b + sqrt(d)) / (2.0 * a)` in `ray_sphere`. -/
noncomputable def isect_t1 (sph : Sphere) (ray : Ray) : ℝ :=
  (-isect_b sph ray + Real.sqrt (isect_d sph ray)) / (2.0 * isect_a ray)

/-- The root `t2 = (-b - sqrt(d)) / (2.0 * a)` in `ray_sphere`. -/
noncomputable def isect_t2 (sph : Sphere) (ray : Ray) : ℝ :=
  (-isect_b sph ray - Real.sqrt (isect_d sph ray)) / (2.0 * isect_a ray)

/-- The distance stored into `sp->dist` by `ray_sphere`, after the two
sequential fix-ups `if(t1 < ERR_MARGIN) t1 = t2; if(t2 < ERR_MARGIN) t2 = t1;`
(the second test reads the original `t2` but the assignment copies the possibly
updated `t1`), followed by `sp->dist = t1 < t2 ? t1 : t2`. -/
noncomputable def isect_dist (sph : Sphere) (ray : Ray) : ℝ :=
  let t1 := if isect_t1 sph ray < ERR_MARGIN then isect_t2 sph ray else isect_t1 sph ray
  let t2 := if isect_t2 sph ray < ERR_MARGIN then t1 else isect_t2 sph ray
  if t1 < t2 then t1 else t2

/-- The surface position stored by `ray_sphere`:
`sp->pos = ray.orig + ray.dir * sp->dist` componentwise. -/
noncomputable def isect_pos (sph : Sphere) (ray : Ray) : Vec3 :=
  ⟨ray.orig.x + ray.dir.x * isect_dist sph ray,
   ray.orig.y + ray.dir.y * isect_dist sph ray,
   ray.orig.z + ray.dir.z * isect_dist sph ray⟩

/-- The normal stored by `ray_sphere`: `(sp->pos - sph->pos) / sph->rad`. -/
noncomputable def isect_normal (sph : Sphere) (ray : Ray) : Vec3 :=
  ⟨((isect_pos sph ray).x - sph.pos.x) / sph.rad,
   ((isect_pos sph ray).y - sph.pos.y) / sph.rad,
   ((isect_pos sph ray).z - sph.pos.z) / sph.rad⟩

/-- `ray_sphere(sph, ray, sp)`: `none` models the `return 0` cases (negative
discriminant, or both roots below `ERR_MARGIN`, or both roots above `1.0`);
`some` carries the surface point written through `sp`.  The boolean-only mode
(`sp == NULL`, used for shadow rays) has the same hit condition and is modeled
by `Option.isSome` of this function. -/
noncomputable def ray_sphere (sph : Sphere) (ray : Ray) : Option Spoint :=
  if isect_d sph ray < 0.0 then none
  else if (isect_t1 sph ray < ERR_MARGIN ∧ isect_t2 sph ray < ERR_MARGIN) ∨
      (isect_t1 sph ray > 1.0 ∧ isect_t2 sph ray > 1.0) then none
  else
    some ⟨isect_pos sph ray, isect_normal sph ray,
      normalize (reflect ray.dir (isect_normal sph ray)), isect_dist sph ray⟩

/-- The nearest-intersection loop of `trace` (`while(iter) { if(ray_sphere(...))
{ if(!nearest_obj || sp.dist < nearest_sp.dist) { nearest_obj = iter;
nearest_sp = sp; } } iter = iter->next; }`), with the running
`(nearest_obj, nearest_sp)` pair as the accumulator. -/
noncomputable def find_nearest_loop (ray : Ray) :
    List Sphere → Option (Sphere × Spoint) → Option (Sphere × Spoint)
  | [], acc => acc
  | obj :: rest, acc =>
    find_nearest_loop ray rest
      (match ray_sphere obj ray with
       | none => acc
       | some sp =>
         match acc with
         | none => some (obj, sp)
         | some best => if sp.dist < best.2.dist then some (obj, sp) else acc)

/-- The nearest intersection found by `trace`'s loop over `obj_list->next`. -/
noncomputable def find_nearest (objs : List Sphere) (ray : Ray) :
    Option (Sphere × Spoint) :=
  find_nearest_loop ray objs none

/-- One iteration of `shade`'s per-light loop, with `col` the accumulator:
build the shadow ray whose direction is the literal (unnormalized) vector to
the light, scan all spheres for any occluder, and if unoccluded add the Phong
diffuse and specular terms. -/
noncomputable def shade_light_step (ctx : Ctx) (obj : Sphere) (sp : Spoint)
    (col : Vec3) (light : Vec3) : Vec3 :=
  let ldir : Vec3 := ⟨light.x - sp.pos.x, light.y - sp.pos.y, light.z - sp.pos.z⟩
  let shadow_ray : Ray := ⟨sp.pos, ldir⟩
  let in_shadow := ctx.obj_list.any (fun o => (ray_sphere o shadow_ray).isSome)
  if in_shadow then col
  else
    let l := normalize ldir
    let idiff := max (dotv sp.normal l) 0.0
    let ispec := if obj.mat.spow > 0.0 then
        (max (dotv sp.vref l) 0.0) ^ obj.mat.spow else 0.0
    ⟨col.x + idiff * obj.mat.col.x + ispec,
     col.y + idiff * obj.mat.col.y + ispec,
     col.z + idiff * obj.mat.col.z + ispec⟩

/-- The body of `shade(obj, sp, depth)` with the recursive `trace(ray, depth+1)`
call abstracted as `tr` (which `shade` instantiates with `trace` at
`depth + 1`): the per-light loop accumulating the Phong terms into `col`,
followed by the reflection term when `obj->mat.refl > 0.0`. -/
noncomputable def shade_body (ctx : Ctx) (tr : Ray → Vec3) (obj : Sphere)
    (sp : Spoint) : Vec3 :=
  let col := ctx.lights.foldl (shade_light_step ctx obj sp) (0 : Vec3)
  if obj.mat.refl > 0.0 then
    let rcol := tr ⟨sp.pos, ⟨sp.vref.x * RAY_MAG, sp.vref.y * RAY_MAG, sp.vref.z * RAY_MAG⟩⟩
    ⟨col.x + rcol.x * obj.mat.refl,
     col.y + rcol.y * obj.mat.refl,
     col.z + rcol.z * obj.mat.refl⟩
  else col

/-- `trace(ray, depth)`: bail out with black at the recursion limit, find the
nearest intersected sphere, and shade it (the recursion into `trace` at
`depth + 1` happens through the reflection branch of `shade`). -/
noncomputable def trace (ctx : Ctx) (ray : Ray) (depth : ℕ) : Vec3 :=
  if _h : MAX_RAY_DEPTH ≤ depth then ⟨0.0, 0.0, 0.0⟩
  else
    match find_nearest ctx.obj_list ray with
    | some (obj, sp) => shade_body ctx (fun r => trace ctx r (depth + 1)) obj sp
    | none => ⟨0.0, 0.0, 0.0⟩
termination_by MAX_RAY_DEPTH - depth
decreasing_by simp only [MAX_RAY_DEPTH] at *; omega

/-- `shade(obj, sp, depth)`: its reflection branch calls `trace(ray, depth+1)`. -/
noncomputable def shade (ctx : Ctx) (obj : Sphere) (sp : Spoint) (depth : ℕ) : Vec3 :=
  shade_body ctx (fun r => trace ctx r (depth + 1)) obj sp

/-- The `irand` index `(x + s) & MASK` used for the x channel in `jitter`. -/
def jit_i1 (x s : ℕ) : ℕ := (x + s) &&& MASK

/-- The `irand` index `(y + s) & MASK` used for the y channel in `jitter`. -/
def jit_i2 (y s : ℕ) : ℕ := (y + s) &&& MASK

/-- The `urand` index `(x + (y << 2) + irand[(x + s) & MASK]) & MASK` in `jitter`. -/
def jit_u1 (ctx : Ctx) (x y s : ℕ) : ℕ :=
  (x + (y <<< 2) + ctx.irand (jit_i1 x s)) &&& MASK

/-- The `urand` index `(y + (x << 2) + irand[(y + s) & MASK]) & MASK` in `jitter`. -/
def jit_u2 (ctx : Ctx) (x y s : ℕ) : ℕ :=
  (y + (x <<< 2) + ctx.irand (jit_i2 y s)) &&& MASK

/-- `jitter(x, y, s)`: reads `urand[...].x` and `urand[...].y` (the z field of
the returned `struct vec3` is left uninitialized in C and never read; it is 0
here). -/
def jitter (ctx : Ctx) (x y s : ℕ) : Vec3 :=
  ⟨(ctx.urand (jit_u1 ctx x y s)).x, (ctx.urand (jit_u2 ctx x y s)).y, 0⟩

/-- `get_sample_pos(x, y, sample)` with `sf = 1.5 / xres` (the lazily
initialized static is a cache of this constant). -/
noncomputable def get_sample_pos (ctx : Ctx) (x y sample : ℕ) : Vec3 :=
  let sf := 1.5 / (ctx.xres : ℝ)
  let ptx := ((x : ℝ) / (ctx.xres : ℝ)) - 0.5
  let pty := -(((y : ℝ) / (ctx.yres : ℝ)) - 0.65) / ctx.aspect
  if sample ≠ 0 then
    let jt := jitter ctx x y sample
    ⟨ptx + jt.x * sf, pty + jt.y * sf / ctx.aspect, 0⟩
  else ⟨ptx, pty, 0⟩

/-- `get_primary_ray(x, y, sample)`: build the camera basis `(i, j, k)`,
take the sample position with depth `1/HALF_FOV` scaled by `RAY_MAG`,
rotate by the basis matrix and translate by the camera position. -/
noncomputable def get_primary_ray (ctx : Ctx) (x y sample : ℕ) : Ray :=
  let k := normalize ⟨ctx.cam.targ.x - ctx.cam.pos.x,
                      ctx.cam.targ.y - ctx.cam.pos.y,
                      ctx.cam.targ.z - ctx.cam.pos.z⟩
  let i := cross_product ⟨0, 1, 0⟩ k
  let j := cross_product k i
  let sp := get_sample_pos ctx x y sample
  let dir : Vec3 := ⟨sp.x * RAY_MAG, sp.y * RAY_MAG, (1.0 / HALF_FOV) * RAY_MAG⟩
  let foo : Vec3 := ⟨dir.x * i.x + dir.y * j.x + dir.z * k.x,
                     dir.x * i.y + dir.y * j.y + dir.z * k.y,
                     dir.x * i.z + dir.y * j.z + dir.z * k.z⟩
  let orig : Vec3 := ⟨ctx.cam.pos.x, ctx.cam.pos.y, ctx.cam.pos.z⟩
  ⟨orig, ⟨foo.x + orig.x, foo.y + orig.y, foo.z + orig.z⟩⟩

/-- The per-pixel body shared verbatim by `render_scanline` (lines 160-177) and
the sequential `render` (lines 550-567): accumulate `samples` traced primary
rays into `r`, `g`, `b`, multiply by `1.0 / samples`, then pack
`((uint32_t)(MIN(ch, 1.0) * 255.0) & 0xff) << SHIFT` for each channel.  The
C cast `(uint32_t)` truncates toward zero; it is modeled by `Int.toNat ∘ ⌊·⌋`,
which agrees with it on the nonnegative values produced here. -/
noncomputable def render_pixel (ctx : Ctx) (i j samples : ℕ) : ℕ :=
  let rcp_samples := 1.0 / (samples : ℝ)
  let acc := (List.range samples).foldl
    (fun (acc : ℝ × ℝ × ℝ) s =>
      let col := trace ctx (get_primary_ray ctx i j s) 0
      (acc.1 + col.x, acc.2.1 + col.y, acc.2.2 + col.z)) (0.0, 0.0, 0.0)
  let r := acc.1 * rcp_samples
  let g := acc.2.1 * rcp_samples
  let b := acc.2.2 * rcp_samples
  ((Int.toNat ⌊min r 1.0 * 255.0⌋ &&& 0xff) <<< RSHIFT) |||
    ((Int.toNat ⌊min g 1.0 * 255.0⌋ &&& 0xff) <<< GSHIFT) |||
    ((Int.toNat ⌊min b 1.0 * 255.0⌋ &&& 0xff) <<< BSHIFT)

/-- `render_scanline(xsz, ysz, sl, fb, samples)`: for each `i < xsz` store the
packed pixel into `fb[sl * xsz + i]`.  The framebuffer is modeled as a total
map from flat index to packed 32-bit value (`ysz` is accepted and unused,
exactly as in the source). -/
noncomputable def render_scanline (ctx : Ctx) (xsz ysz sl : ℕ) (fb : ℕ → ℕ)
    (samples : ℕ) : ℕ → ℕ :=
  (List.range xsz).foldl
    (fun fb i => Function.update fb (sl * xsz + i) (render_pixel ctx i sl samples)) fb

/-- The sequential `render(xsz, ysz, fb, samples)`: the nested
`for(j...) for(i...)` loops write the packed pixels through `*fb++`, i.e.
produce the row-major list of all `xsz * ysz` packed pixels. -/
noncomputable def render (ctx : Ctx) (xsz ysz samples : ℕ) : List ℕ :=
  ((List.range ysz).map (fun j => (List.range xsz).map
    (fun i => render_pixel ctx i j samples))).flatten

/-- `thread_func`: after the start barrier (pure rendering has no visible
synchronization effect), render scanlines `sl_start, ..., sl_start+sl_count-1`
through `render_scanline(xres, yres, i + sl_start, pixels, rays_per_pixel)`. -/
noncomputable def thread_func (ctx : Ctx) (sl_start sl_count : ℕ)
    (fb : ℕ → ℕ) : ℕ → ℕ :=
  (List.range sl_count).foldl
    (fun fb i => render_scanline ctx ctx.xres ctx.yres (i + sl_start) fb
      ctx.rays_per_pixel) fb

/-- `sl_per_thread = (double)yres / (double)thread_num` in `cray_mt`; the
division of the two nonnegative ints is modeled exactly over `ℚ`. -/
def sl_per_thread (yres thread_num : ℕ) : ℚ := (yres : ℚ) / (thread_num : ℚ)

/-- The partition loop of `cray_mt`: starting from `sl`, produce `m` pairs
`(sl_start, sl_count)` via `sl_start = (int)sl; sl += sl_per_thread;
sl_count = (int)sl - sl_start;`.  Since `sl ≥ 0` throughout, the truncating
`(int)` cast is `Int.floor`. -/
def partition_loop (per : ℚ) : ℕ → ℚ → List (ℤ × ℤ)
  | 0, _ => []
  | m + 1, sl => (⌊sl⌋, ⌊sl + per⌋ - ⌊sl⌋) :: partition_loop per m (sl + per)

/-- The fix-up after the loop:
`threads[thread_num-1].sl_count = yres - threads[thread_num-1].sl_start`. -/
def fix_last (yres : ℤ) : List (ℤ × ℤ) → List (ℤ × ℤ)
  | [] => []
  | [(s, _c)] => [(s, yres - s)]
  | p :: q :: rest => p :: fix_last yres (q :: rest)

/-- The scanline ranges `(sl_start, sl_count)` computed by `cray_mt` for
`thread_num` workers over `yres` scanlines, including the final fix-up of the
last worker's count. -/
def cray_mt_ranges (yres thread_num : ℕ) : List (ℤ × ℤ) :=
  fix_last (yres : ℤ) (partition_loop (sl_per_thread yres thread_num) thread_num 0)

/-- The scene hardcoded in `load_scene`: each `s` line is prepended to
`obj_list->next`, so the in-memory order is the reverse of the file order;
lights keep file order. -/
def load_scene_objs : List Sphere :=
  [⟨⟨0, 0, 2⟩, 1, ⟨⟨1.0, 0.5, 0.1⟩, 60.0, 0.7⟩⟩,
   ⟨⟨0, -1000, 2⟩, 999, ⟨⟨0.1, 0.2, 0.6⟩, 80.0, 0.8⟩⟩,
   ⟨⟨1.5, -0.4, 0⟩, 0.6, ⟨⟨0.1, 0.85, 1.0⟩, 50.0, 0.4⟩⟩,
   ⟨⟨-1.5, -0.3, -1⟩, 0.7, ⟨⟨1.0, 0.2, 0.05⟩, 50.0, 0.3⟩⟩]

/-- The two `l` lines of the hardcoded scene. -/
def load_scene_lights : List Vec3 := [⟨-50, 100, -50⟩, ⟨40, 40, 150⟩]

/-- The `c` line of the hardcoded scene. -/
def load_scene_cam : Camera := ⟨⟨0, 6, -17⟩, ⟨0, -1, 0⟩, 45⟩

/-- The global state after `load_scene` with the default resolution, sample
count and aspect ratio, and unconstrained jitter tables (they are filled from
`rand()` at startup; all claims hold for arbitrary table contents, so the
tables are left at a fixed arbitrary value here). -/
def load_scene_ctx : Ctx where
  xres := 800
  yres := 600
  rays_per_pixel := 1
  aspect := 1.333333
  obj_list := load_scene_objs
  lights := load_scene_lights
  cam := load_scene_cam
  urand := fun _ => ⟨0, 0, 0⟩
  irand := fun _ => 0

/-! ### Basic facts about `trace` -/

theorem trace_of_depth_ge (ctx : Ctx) (ray : Ray) (depth : ℕ)
    (h : MAX_RAY_DEPTH ≤ depth) : trace ctx ray depth = ⟨0.0, 0.0, 0.0⟩ := by
  rw [trace]
  simp [h]

theorem trace_of_depth_lt (ctx : Ctx) (ray : Ray) (depth : ℕ)
    (h : depth < MAX_RAY_DEPTH) :
    trace ctx ray depth =
      match find_nearest ctx.obj_list ray with
      | some (obj, sp) => shade ctx obj sp depth
      | none => ⟨0.0, 0.0, 0.0⟩ := by
  rw [trace]
  simp only [Nat.not_le.mpr h, dite_false]
  rfl

/-- C6: the mutual recursion between `trace` and `shade` terminates: `trace`
is a total function (it is well-defined by recursion on `MAX_RAY_DEPTH - depth`
because the reflection path in `shade` recurses at `depth + 1`), and for every
scene state and every ray it returns black `(0,0,0)` unconditionally whenever
`depth ≥ MAX_RAY_DEPTH = 5`. -/
theorem trace_total_and_black_beyond_depth_limit (ctx : Ctx) (ray : Ray)
    (depth : ℕ) (h : MAX_RAY_DEPTH ≤ depth) :
    trace ctx ray depth = ⟨0.0, 0.0, 0.0⟩ :=
  trace_of_depth_ge ctx ray depth h

/-- Witness for C6 at the hardcoded scene, an arbitrary ray, and depth 5. -/
theorem trace_total_and_black_beyond_depth_limit_witness :
    MAX_RAY_DEPTH ≤ 5 ∧
      trace load_scene_ctx ⟨⟨0, 0, 0⟩, ⟨0, 0, 1⟩⟩ 5 = ⟨0.0, 0.0, 0.0⟩ :=
  ⟨by decide,
   trace_total_and_black_beyond_depth_limit load_scene_ctx ⟨⟨0, 0, 0⟩, ⟨0, 0, 1⟩⟩ 5
     (by decide)⟩

/-- C9: every index `jitter` computes into the `urand` and `irand` tables is
masked with `MASK = 1023`, hence lies in `[0, 1023]`, within the bounds of the
`NRAN = 1024`-entry tables — for all pixel coordinates and sample indices and
arbitrary `irand` table contents. -/
theorem jitter_indices_in_bounds (ctx : Ctx) (x y s : ℕ) :
    jit_i1 x s < NRAN ∧ jit_i2 y s < NRAN ∧
      jit_u1 ctx x y s < NRAN ∧ jit_u2 ctx x y s < NRAN := by
  have hm : MASK < NRAN := by decide
  exact ⟨lt_of_le_of_lt Nat.and_le_right hm, lt_of_le_of_lt Nat.and_le_right hm,
    lt_of_le_of_lt Nat.and_le_right hm, lt_of_le_of_lt Nat.and_le_right hm⟩

/-! ### The scanline partition of `cray_mt` -/

theorem partition_loop_length (per : ℚ) :
    ∀ (m : ℕ) (sl : ℚ), (partition_loop per m sl).length = m
  | 0, _ => rfl
  | m + 1, sl => by
    simp [partition_loop, partition_loop_length per m (sl + per)]

theorem partition_loop_getD (per : ℚ) :
    ∀ (m : ℕ) (sl : ℚ) (i : ℕ), i < m →
      (partition_loop per m sl).getD i (0, 0) =
        (⌊sl + i * per⌋, ⌊sl + (i + 1) * per⌋ - ⌊sl + i * per⌋)
  | 0, _, i, hi => absurd hi (Nat.not_lt_zero i)
  | m + 1, sl, 0, _ => by
    simp [partition_loop]
  | m + 1, sl, i + 1, hi => by
    have hstep : partition_loop per (m + 1) sl =
        (⌊sl⌋, ⌊sl + per⌋ - ⌊sl⌋) :: partition_loop per m (sl + per) := rfl
    rw [hstep, List.getD_cons_succ, partition_loop_getD per m (sl + per) i (by omega)]
    push_cast
    have e1 : sl + per + (i : ℚ) * per = sl + ((i : ℚ) + 1) * per := by ring
    have e2 : sl + per + ((i : ℚ) + 1) * per = sl + ((i : ℚ) + 1 + 1) * per := by ring
    rw [e1, e2]

theorem fix_last_length (y : ℤ) :
    ∀ l : List (ℤ × ℤ), (fix_last y l).length = l.length
  | [] => rfl
  | [_] => rfl
  | _ :: q :: rest => by
    simp [fix_last, fix_last_length y (q :: rest)]

theorem fix_last_getD_of_lt (y : ℤ) :
    ∀ (l : List (ℤ × ℤ)) (i : ℕ), i + 1 < l.length →
      (fix_last y l).getD i (0, 0) = l.getD i (0, 0)
  | [], i, h => by simp at h
  | [_], i, h => by simp at h
  | _ :: _ :: _, 0, _ => rfl
  | p :: q :: rest, i + 1, h => by
    have := fix_last_getD_of_lt y (q :: rest) i (by simpa using h)
    simpa [fix_last] using this

theorem fix_last_getD_last (y : ℤ) :
    ∀ (l : List (ℤ × ℤ)) (i : ℕ), i + 1 = l.length →
      (fix_last y l).getD i (0, 0) = ((l.getD i (0, 0)).1, y - (l.getD i (0, 0)).1)
  | [], i, h => by simp at h
  | [p], 0, _ => rfl
  | [p], i + 1, h => by simp at h
  | p :: q :: rest, 0, h => by simp at h
  | p :: q :: rest, i + 1, h => by
    have := fix_last_getD_last y (q :: rest) i (by simpa using h)
    simpa [fix_last] using this

/-- Closed form of the start scanline of worker `i`: since the `ℚ` accumulation
is exact, `sl` before iteration `i` equals `i * sl_per_thread`. -/
def pstart (h n : ℕ) (i : ℕ) : ℤ := ⌊(i : ℚ) * sl_per_thread h n⌋

theorem pstart_zero (h n : ℕ) : pstart h n 0 = 0 := by
  simp [pstart]

theorem pstart_mono (h n : ℕ) {i j : ℕ} (hij : i ≤ j) :
    pstart h n i ≤ pstart h n j := by
  apply Int.floor_le_floor
  have hper : (0 : ℚ) ≤ sl_per_thread h n := by
    unfold sl_per_thread
    positivity
  exact mul_le_mul_of_nonneg_right (by exact_mod_cast hij) hper

theorem pstart_top (h n : ℕ) (hn : n ≠ 0) : pstart h n n = (h : ℤ) := by
  unfold pstart sl_per_thread
  rw [mul_div_cancel₀ _ (by exact_mod_cast hn : (n : ℚ) ≠ 0)]
  exact_mod_cast Int.floor_natCast h

theorem cray_mt_ranges_length (h n : ℕ) : (cray_mt_ranges h n).length = n := by
  unfold cray_mt_ranges
  rw [fix_last_length, partition_loop_length]

theorem cray_mt_ranges_getD_of_lt (h n : ℕ) {i : ℕ} (hi : i + 1 < n) :
    (cray_mt_ranges h n).getD i (0, 0) =
      (pstart h n i, pstart h n (i + 1) - pstart h n i) := by
  unfold cray_mt_ranges
  rw [fix_last_getD_of_lt _ _ _ (by rw [partition_loop_length]; exact hi),
    partition_loop_getD _ _ _ _ (by omega)]
  simp only [pstart, zero_add]
  push_cast
  rfl

theorem cray_mt_ranges_getD_last (h n : ℕ) (hn : 1 ≤ n) :
    (cray_mt_ranges h n).getD (n - 1) (0, 0) =
      (pstart h n (n - 1), (h : ℤ) - pstart h n (n - 1)) := by
  unfold cray_mt_ranges
  rw [fix_last_getD_last _ _ _ (by rw [partition_loop_length]; omega),
    partition_loop_getD _ _ _ _ (by omega)]
  simp only [pstart, zero_add]

/-- The start of every worker's range, together with its exclusive end
(`start + count`), in closed form: worker `i < n` covers
`[pstart i, pstart (i+1))`. -/
theorem cray_mt_ranges_start_end (h n : ℕ) (hn : 1 ≤ n) {i : ℕ} (hi : i < n) :
    ((cray_mt_ranges h n).getD i (0, 0)).1 = pstart h n i ∧
      ((cray_mt_ranges h n).getD i (0, 0)).1 +
        ((cray_mt_ranges h n).getD i (0, 0)).2 = pstart h n (i + 1) := by
  rcases Nat.lt_or_ge (i + 1) n with hlt | hge
  · rw [cray_mt_ranges_getD_of_lt h n hlt]
    constructor
    · rfl
    · simp
  · have hlast : i = n - 1 := by omega
    subst hlast
    rw [cray_mt_ranges_getD_last h n hn]
    have hn1 : n - 1 + 1 = n := by omega
    rw [hn1, pstart_top h n (by omega)]
    constructor
    · rfl
    · simp

/-- Any value below a weakly increasing integer staircase's top lies in exactly
one of its `n` consecutive bands `[f i, f (i+1))`. -/
theorem exists_unique_band (f : ℕ → ℤ) (mono : ∀ i j : ℕ, i ≤ j → f i ≤ f j) :
    ∀ n : ℕ, 1 ≤ n → ∀ k : ℤ, f 0 ≤ k → k < f n →
      ∃! i : ℕ, i < n ∧ f i ≤ k ∧ k < f (i + 1) := by
  intro n
  induction n with
  | zero => intro h; exact absurd h (by omega)
  | succ n ih =>
    intro _ k hk0 hkn
    by_cases hn0 : n = 0
    · subst hn0
      refine ⟨0, ⟨by omega, hk0, hkn⟩, ?_⟩
      rintro j ⟨hjlt, _, _⟩
      omega
    · by_cases hfn : f n ≤ k
      · refine ⟨n, ⟨by omega, hfn, hkn⟩, ?_⟩
        rintro j ⟨hjlt, hjs, hje⟩
        by_contra hne
        have hjn : j + 1 ≤ n := by omega
        have := mono (j + 1) n hjn
        omega
      · push_neg at hfn
        obtain ⟨i, hQ, huniq⟩ := ih (by omega) k hk0 hfn
        refine ⟨i, ⟨by omega, hQ.2.1, hQ.2.2⟩, ?_⟩
        rintro j ⟨hjlt, hjs, hje⟩
        rcases Nat.lt_or_ge j n with hjn | hjn
        · exact huniq j ⟨hjn, hjs, hje⟩
        · have hjeq : j = n := by omega
          subst hjeq
          omega

/-- The property claimed by C1 for `cray_mt`'s partition of `[0, height)`. -/
def PartitionCovers (h n : ℕ) : Prop :=
  (cray_mt_ranges h n).length = n ∧
  (∀ k : ℤ, 0 ≤ k → k < (h : ℤ) →
    ∃! i : ℕ, i < n ∧ ((cray_mt_ranges h n).getD i (0, 0)).1 ≤ k ∧
      k < ((cray_mt_ranges h n).getD i (0, 0)).1 +
        ((cray_mt_ranges h n).getD i (0, 0)).2) ∧
  ((cray_mt_ranges h n).getD (n - 1) (0, 0)).1 +
    ((cray_mt_ranges h n).getD (n - 1) (0, 0)).2 = (h : ℤ)

/-- C1: for every image height ≥ 1 and every worker count in `[1, height]`, the
scanline ranges computed by `cray_mt` (including the final fix-up of the last
worker's count) cover `[0, height)` exactly once — every scanline belongs to
exactly one worker's `[sl_start, sl_start + sl_count)` range — and the last
worker's range ends exactly at `height`. -/
theorem cray_mt_partition_covers (h n : ℕ) (hh : 1 ≤ h) (hn : 1 ≤ n)
    (hnh : n ≤ h) : PartitionCovers h n := by
  refine ⟨cray_mt_ranges_length h n, ?_, ?_⟩
  · intro k hk0 hkh
    have hband := exists_unique_band (pstart h n)
      (fun i j hij => pstart_mono h n hij) n hn k
      (by rw [pstart_zero]; exact hk0)
      (by rw [pstart_top h n (by omega)]; exact hkh)
    obtain ⟨i0, ⟨hi0lt, hi0s, hi0e⟩, huniq⟩ := hband
    obtain ⟨hs0, he0⟩ := cray_mt_ranges_start_end h n hn hi0lt
    refine ⟨i0, ⟨hi0lt, by rw [hs0]; exact hi0s, by rw [he0]; exact hi0e⟩, ?_⟩
    rintro j ⟨hjlt, hjs, hje⟩
    obtain ⟨hsj, hej⟩ := cray_mt_ranges_start_end h n hn hjlt
    rw [hsj] at hjs
    rw [hej] at hje
    exact huniq j ⟨hjlt, hjs, hje⟩
  · obtain ⟨_, he⟩ := cray_mt_ranges_start_end h n hn (by omega : n - 1 < n)
    rw [he, Nat.sub_add_cancel hn, pstart_top h n (by omega)]

/-- Witness for C1 at height 5 with 3 workers. -/
theorem cray_mt_partition_covers_witness :
    1 ≤ 5 ∧ 1 ≤ 3 ∧ 3 ≤ 5 ∧ PartitionCovers 5 3 :=
  ⟨by decide, by decide, by decide,
    cray_mt_partition_covers 5 3 (by decide) (by decide) (by decide)⟩

theorem floor_sl_per_thread (h n : ℕ) :
    ⌊sl_per_thread h n⌋ = (h : ℤ) / (n : ℤ) := by
  unfold sl_per_thread
  exact Rat.floor_natCast_div_natCast h n

/-- C8 counterexample: for height 5 and 3 workers, worker 1 is not the last
worker, yet its scanline count is `2 ≠ 1 = ⌊5/3⌋`: the loop assigns
`⌊(i+1)·5/3⌋ - ⌊i·5/3⌋` scanlines, not always `⌊5/3⌋`. -/
theorem cray_mt_equal_share_counterexample :
    1 + 1 < 3 ∧ ((cray_mt_ranges 5 3).getD 1 (0, 0)).2 = 2 ∧
      (5 : ℤ) / 3 = 1 ∧ ((cray_mt_ranges 5 3).getD 1 (0, 0)).2 ≠ (5 : ℤ) / 3 := by
  have hper : sl_per_thread 5 3 = 5 / 3 := by norm_num [sl_per_thread]
  have hcalc : cray_mt_ranges 5 3 = [(0, 1), (1, 2), (3, 2)] := by
    simp only [cray_mt_ranges, hper, partition_loop, fix_last]
    norm_num
  rw [hcalc]
  decide

/-- C8 (amended): for every height and worker count in `[1, height]`, every
worker except the last is assigned a contiguous scanline range of either
`⌊height/worker_count⌋` or `⌊height/worker_count⌋ + 1` scanlines (the loop
gives worker `i` exactly `⌊(i+1)·height/worker_count⌋ - ⌊i·height/worker_count⌋`),
and the last worker receives the remainder `height - last_worker_start`. -/
theorem cray_mt_share_sizes (h n : ℕ) (hn : 1 ≤ n) (hnh : n ≤ h) :
    (∀ i : ℕ, i + 1 < n →
      ((cray_mt_ranges h n).getD i (0, 0)).2 = (h : ℤ) / (n : ℤ) ∨
        ((cray_mt_ranges h n).getD i (0, 0)).2 = (h : ℤ) / (n : ℤ) + 1) ∧
    ((cray_mt_ranges h n).getD (n - 1) (0, 0)).2 =
      (h : ℤ) - ((cray_mt_ranges h n).getD (n - 1) (0, 0)).1 := by
  constructor
  · intro i hi
    rw [cray_mt_ranges_getD_of_lt h n hi]
    have hq : ⌊sl_per_thread h n⌋ = (h : ℤ) / (n : ℤ) := floor_sl_per_thread h n
    have hlow : pstart h n i + ⌊sl_per_thread h n⌋ ≤ pstart h n (i + 1) := by
      unfold pstart
      apply Int.le_floor.mpr
      push_cast
      have h1 := Int.floor_le ((i : ℚ) * sl_per_thread h n)
      have h2 := Int.floor_le (sl_per_thread h n)
      have he : ((i : ℚ) + 1) * sl_per_thread h n =
          (i : ℚ) * sl_per_thread h n + sl_per_thread h n := by ring
      rw [he]
      exact add_le_add h1 h2
    have hhigh : pstart h n (i + 1) ≤ pstart h n i + ⌊sl_per_thread h n⌋ + 1 := by
      unfold pstart
      have h1 := Int.lt_floor_add_one ((i : ℚ) * sl_per_thread h n)
      have h2 := Int.lt_floor_add_one (sl_per_thread h n)
      have hlt : ((i + 1 : ℕ) : ℚ) * sl_per_thread h n <
          ((⌊(i : ℚ) * sl_per_thread h n⌋ + ⌊sl_per_thread h n⌋ + 2 : ℤ) : ℚ) := by
        push_cast
        nlinarith [h1, h2]
      have := Int.floor_lt.mpr hlt
      omega
    omega
  · rw [cray_mt_ranges_getD_last h n hn]

/-- Witness for the amended C8 at height 5 with 3 workers. -/
theorem cray_mt_share_sizes_witness :
    1 ≤ 3 ∧ 3 ≤ 5 ∧
      ((∀ i : ℕ, i + 1 < 3 →
        ((cray_mt_ranges 5 3).getD i (0, 0)).2 = (5 : ℤ) / (3 : ℤ) ∨
          ((cray_mt_ranges 5 3).getD i (0, 0)).2 = (5 : ℤ) / (3 : ℤ) + 1) ∧
      ((cray_mt_ranges 5 3).getD (3 - 1) (0, 0)).2 =
        (5 : ℤ) - ((cray_mt_ranges 5 3).getD (3 - 1) (0, 0)).1) := by
  refine ⟨by decide, by decide, ?_⟩
  have := cray_mt_share_sizes 5 3 (by decide) (by decide)
  exact_mod_cast this

/-! ### Nearest-hit selection in `trace` -/

theorem find_nearest_loop_none (ray : Ray) :
    ∀ (l : List Sphere) (acc : Option (Sphere × Spoint)),
      find_nearest_loop ray l acc = none ↔
        acc = none ∧ ∀ o ∈ l, ray_sphere o ray = none
  | [], acc => by simp [find_nearest_loop]
  | obj :: rest, acc => by
    rw [find_nearest_loop]
    rcases hobj : ray_sphere obj ray with _ | sp
    · simp only [find_nearest_loop_none ray rest acc, List.forall_mem_cons, hobj]
      tauto
    · rcases acc with _ | best
      · simp only [find_nearest_loop_none ray rest (some (obj, sp)),
          List.forall_mem_cons, hobj]
        simp
      · simp only [List.forall_mem_cons, hobj]
        split
        · simp only [find_nearest_loop_none ray rest (some (obj, sp))]
          simp
        · simp only [find_nearest_loop_none ray rest (some best)]
          simp

theorem find_nearest_loop_some (ray : Ray) :
    ∀ (l : List Sphere) (acc : Option (Sphere × Spoint)) (o : Sphere) (sp : Spoint),
      find_nearest_loop ray l acc = some (o, sp) →
        (acc = some (o, sp) ∨ (o ∈ l ∧ ray_sphere o ray = some sp)) ∧
        (∀ o2 ∈ l, ∀ sp2, ray_sphere o2 ray = some sp2 → sp.dist ≤ sp2.dist) ∧
        (∀ b : Sphere × Spoint, acc = some b → sp.dist ≤ b.2.dist)
  | [], acc, o, sp, hres => by
    rw [find_nearest_loop] at hres
    subst hres
    refine ⟨Or.inl rfl, by simp, ?_⟩
    rintro b hb
    rw [Option.some_inj] at hb
    rw [← hb]
  | obj :: rest, acc, o, sp, hres => by
    rw [find_nearest_loop] at hres
    rcases hobj : ray_sphere obj ray with _ | sp0 <;> rw [hobj] at hres
    · obtain ⟨h1, h2, h3⟩ := find_nearest_loop_some ray rest acc o sp hres
      refine ⟨?_, ?_, h3⟩
      · rcases h1 with h1 | h1
        · exact Or.inl h1
        · exact Or.inr ⟨List.mem_cons_of_mem _ h1.1, h1.2⟩
      · intro o2 ho2 sp2 hsp2
        rcases List.mem_cons.mp ho2 with rfl | ho2
        · rw [hobj] at hsp2; cases hsp2
        · exact h2 o2 ho2 sp2 hsp2
    · rcases acc with _ | best
      · obtain ⟨h1, h2, h3⟩ := find_nearest_loop_some ray rest (some (obj, sp0)) o sp hres
        have hsp0 : sp.dist ≤ sp0.dist := h3 (obj, sp0) rfl
        refine ⟨?_, ?_, ?_⟩
        · rcases h1 with h1 | h1
          · rw [Option.some_inj, Prod.mk.injEq] at h1
            obtain ⟨rfl, rfl⟩ := h1
            exact Or.inr ⟨List.mem_cons_self _ _, hobj⟩
          · exact Or.inr ⟨List.mem_cons_of_mem _ h1.1, h1.2⟩
        · intro o2 ho2 sp2 hsp2
          rcases List.mem_cons.mp ho2 with rfl | ho2
          · rw [hobj] at hsp2
            rw [Option.some_inj] at hsp2
            rw [← hsp2]
            exact hsp0
          · exact h2 o2 ho2 sp2 hsp2
        · rintro b hb
          cases hb
      · by_cases hlt : sp0.dist < best.2.dist <;>
          simp only [hlt, if_true, if_false, reduceIte] at hres
        · obtain ⟨h1, h2, h3⟩ := find_nearest_loop_some ray rest (some (obj, sp0)) o sp hres
          have hsp0 : sp.dist ≤ sp0.dist := h3 (obj, sp0) rfl
          refine ⟨?_, ?_, ?_⟩
          · rcases h1 with h1 | h1
            · rw [Option.some_inj, Prod.mk.injEq] at h1
              obtain ⟨rfl, rfl⟩ := h1
              exact Or.inr ⟨List.mem_cons_self _ _, hobj⟩
            · exact Or.inr ⟨List.mem_cons_of_mem _ h1.1, h1.2⟩
          · intro o2 ho2 sp2 hsp2
            rcases List.mem_cons.mp ho2 with rfl | ho2
            · rw [hobj] at hsp2
              rw [Option.some_inj] at hsp2
              rw [← hsp2]
              exact hsp0
            · exact h2 o2 ho2 sp2 hsp2
          · rintro b hb
            rw [Option.some_inj] at hb
            rw [← hb]
            exact le_trans hsp0 (le_of_lt hlt)
        · obtain ⟨h1, h2, h3⟩ := find_nearest_loop_some ray rest (some best) o sp hres
          have hbest : sp.dist ≤ best.2.dist := h3 best rfl
          refine ⟨?_, ?_, ?_⟩
          · rcases h1 with h1 | h1
            · exact Or.inl h1
            · exact Or.inr ⟨List.mem_cons_of_mem _ h1.1, h1.2⟩
          · intro o2 ho2 sp2 hsp2
            rcases List.mem_cons.mp ho2 with rfl | ho2
            · rw [hobj] at hsp2
              rw [Option.some_inj] at hsp2
              rw [← hsp2]
              exact le_trans hbest (not_lt.mp hlt)
            · exact h2 o2 ho2 sp2 hsp2
          · rintro b hb
            rw [Option.some_inj] at hb
            rw [← hb]
            exact hbest

theorem find_nearest_none_iff (objs : List Sphere) (ray : Ray) :
    find_nearest objs ray = none ↔ ∀ o ∈ objs, ray_sphere o ray = none := by
  unfold find_nearest
  rw [find_nearest_loop_none]
  simp

theorem find_nearest_spec (objs : List Sphere) (ray : Ray) (o : Sphere)
    (sp : Spoint) (h : find_nearest objs ray = some (o, sp)) :
    o ∈ objs ∧ ray_sphere o ray = some sp ∧
      ∀ o2 ∈ objs, ∀ sp2, ray_sphere o2 ray = some sp2 → sp.dist ≤ sp2.dist := by
  obtain ⟨h1, h2, _⟩ := find_nearest_loop_some ray objs none o sp h
  rcases h1 with h1 | h1
  · cases h1
  · exact ⟨h1.1, h1.2, h2⟩

theorem find_nearest_isSome (objs : List Sphere) (ray : Ray)
    (h : ∃ o ∈ objs, (ray_sphere o ray).isSome) :
    (find_nearest objs ray).isSome := by
  rw [Option.isSome_iff_ne_none]
  intro hnone
  obtain ⟨o, ho, hhit⟩ := h
  rw [(find_nearest_none_iff objs ray).mp hnone o ho] at hhit
  cases hhit

theorem find_nearest_dist_perm (ray : Ray) {l l2 : List Sphere}
    (hp : l.Perm l2) :
    Option.map (fun q : Sphere × Spoint => q.2.dist) (find_nearest l2 ray) =
      Option.map (fun q : Sphere × Spoint => q.2.dist) (find_nearest l ray) := by
  rcases h1 : find_nearest l ray with _ | ⟨o1, sp1⟩ <;>
    rcases h2 : find_nearest l2 ray with _ | ⟨o2, sp2⟩
  · rfl
  · obtain ⟨hm, hhit, _⟩ := find_nearest_spec l2 ray o2 sp2 h2
    rw [(find_nearest_none_iff l ray).mp h1 o2 (hp.symm.subset hm)] at hhit
    cases hhit
  · obtain ⟨hm, hhit, _⟩ := find_nearest_spec l ray o1 sp1 h1
    rw [(find_nearest_none_iff l2 ray).mp h2 o1 (hp.subset hm)] at hhit
    cases hhit
  · obtain ⟨hm1, hhit1, hmin1⟩ := find_nearest_spec l ray o1 sp1 h1
    obtain ⟨hm2, hhit2, hmin2⟩ := find_nearest_spec l2 ray o2 sp2 h2
    simp only [Option.map_some']
    have ha := hmin1 o2 (hp.symm.subset hm2) sp2 hhit2
    have hb := hmin2 o1 (hp.subset hm1) sp1 hhit1
    rw [le_antisymm ha hb]

/-- The nearest-hit property claimed by C4 for `trace` at one scene state, ray
and depth: misses yield black; a found nearest hit is a genuine hit of a scene
sphere, its distance is minimal among all spheres the ray hits, and `trace`
returns that sphere's `shade`; if any sphere is hit a nearest one is found; and
the selected hit distance is invariant under permutation of the sphere list
(only ties can change which sphere is shaded). -/
def TraceNearestSpec (ctx : Ctx) (ray : Ray) (depth : ℕ) : Prop :=
  ((∀ o ∈ ctx.obj_list, ray_sphere o ray = none) →
    trace ctx ray depth = ⟨0.0, 0.0, 0.0⟩) ∧
  (∀ o sp, find_nearest ctx.obj_list ray = some (o, sp) →
    o ∈ ctx.obj_list ∧ ray_sphere o ray = some sp ∧
    (∀ o2 ∈ ctx.obj_list, ∀ sp2, ray_sphere o2 ray = some sp2 →
      sp.dist ≤ sp2.dist) ∧
    trace ctx ray depth = shade ctx o sp depth) ∧
  ((∃ o ∈ ctx.obj_list, (ray_sphere o ray).isSome) →
    (find_nearest ctx.obj_list ray).isSome) ∧
  (∀ l2 : List Sphere, ctx.obj_list.Perm l2 →
    Option.map (fun q : Sphere × Spoint => q.2.dist) (find_nearest l2 ray) =
      Option.map (fun q : Sphere × Spoint => q.2.dist)
        (find_nearest ctx.obj_list ray))

/-- C4: for every ray and every depth below the recursion limit, `trace`
returns the shade of a sphere whose `ray_sphere` hit distance is minimal among
all spheres in the scene that the ray hits, returns black when no sphere is
hit, and the chosen hit distance is independent of the order of the sphere
collection (ties at equal distance may only change which of the tied spheres
is shaded, not the distance). -/
theorem trace_shades_nearest_hit (ctx : Ctx) (ray : Ray) (depth : ℕ)
    (hd : depth < MAX_RAY_DEPTH) : TraceNearestSpec ctx ray depth := by
  refine ⟨?_, ?_, find_nearest_isSome ctx.obj_list ray,
    fun l2 hp => find_nearest_dist_perm ray hp⟩
  · intro hmiss
    rw [trace_of_depth_lt ctx ray depth hd,
      (find_nearest_none_iff ctx.obj_list ray).mpr hmiss]
  · intro o sp hfound
    obtain ⟨hm, hhit, hmin⟩ := find_nearest_spec ctx.obj_list ray o sp hfound
    refine ⟨hm, hhit, hmin, ?_⟩
    rw [trace_of_depth_lt ctx ray depth hd, hfound]

/-- Witness for C4 at the hardcoded scene state, an arbitrary ray, depth 0. -/
theorem trace_shades_nearest_hit_witness :
    0 < MAX_RAY_DEPTH ∧ TraceNearestSpec load_scene_ctx ⟨⟨0, 0, 0⟩, ⟨0, 0, 1⟩⟩ 0 :=
  ⟨by decide, trace_shades_nearest_hit load_scene_ctx ⟨⟨0, 0, 0⟩, ⟨0, 0, 1⟩⟩ 0 (by decide)⟩

/-! ### Decomposition of `shade` (C5) -/

open Classical in
/-- The contribution of a single light per the spec: nothing when any sphere
intersects the shadow ray from the surface position along the literal
(unnormalized) vector to the light; otherwise, per channel,
`max(normal·light_dir, 0) * material.color` plus (when `specular_power > 0`)
`max(view_reflection·light_dir, 0) ^ specular_power` added equally to all
three channels, with the normalized light direction. -/
noncomputable def light_contrib (ctx : Ctx) (obj : Sphere) (sp : Spoint)
    (light : Vec3) : Vec3 :=
  let ldir : Vec3 := ⟨light.x - sp.pos.x, light.y - sp.pos.y, light.z - sp.pos.z⟩
  if ∃ o ∈ ctx.obj_list, (ray_sphere o ⟨sp.pos, ldir⟩).isSome then (0 : Vec3)
  else
    let l := normalize ldir
    let idiff := max (dotv sp.normal l) 0.0
    let ispec := if obj.mat.spow > 0.0 then
        (max (dotv sp.vref l) 0.0) ^ obj.mat.spow else 0.0
    ⟨idiff * obj.mat.col.x + ispec,
     idiff * obj.mat.col.y + ispec,
     idiff * obj.mat.col.z + ispec⟩

theorem shade_light_step_eq (ctx : Ctx) (obj : Sphere) (sp : Spoint)
    (col : Vec3) (light : Vec3) :
    shade_light_step ctx obj sp col light =
      col + light_contrib ctx obj sp light := by
  unfold shade_light_step light_contrib
  by_cases h : ∃ o ∈ ctx.obj_list,
      (ray_sphere o ⟨sp.pos, ⟨light.x - sp.pos.x, light.y - sp.pos.y,
        light.z - sp.pos.z⟩⟩).isSome
  · have hb : (ctx.obj_list.any fun o =>
        (ray_sphere o ⟨sp.pos, ⟨light.x - sp.pos.x, light.y - sp.pos.y,
          light.z - sp.pos.z⟩⟩).isSome) = true := by
      rw [List.any_eq_true]
      obtain ⟨o, ho, hh⟩ := h
      exact ⟨o, ho, hh⟩
    simp only [hb, if_pos h, if_true]
    ext <;> simp
  · have hb : (ctx.obj_list.any fun o =>
        (ray_sphere o ⟨sp.pos, ⟨light.x - sp.pos.x, light.y - sp.pos.y,
          light.z - sp.pos.z⟩⟩).isSome) = false := by
      rw [List.any_eq_false]
      intro o ho
      simp only [Bool.not_eq_true]
      rw [← Bool.not_eq_true]
      intro hh
      exact h ⟨o, ho, hh⟩
    simp only [hb, if_neg h, Bool.false_eq_true, if_false]
    ext <;> simp <;> ring

theorem shade_fold_eq (ctx : Ctx) (obj : Sphere) (sp : Spoint) :
    ∀ (ls : List Vec3) (c : Vec3),
      ls.foldl (shade_light_step ctx obj sp) c =
        c + (ls.map (light_contrib ctx obj sp)).sum
  | [], c => by simp
  | light :: ls, c => by
    rw [List.foldl_cons, shade_fold_eq ctx obj sp ls
      (shade_light_step ctx obj sp c light), shade_light_step_eq]
    rw [List.map_cons, List.sum_cons, add_assoc]

/-- C5: `shade` returns exactly the sum over the scene's lights of the
per-light contribution (nothing for a light whose unnormalized shadow ray is
intersected by any sphere; otherwise, per channel, diffuse times material
color plus the white specular term), plus — when `reflectivity > 0` —
`reflectivity` times the `trace`, at `depth + 1`, of the ray from the surface
position along the view reflection scaled by the trace magnitude. -/
theorem shade_eq_light_sum_add_reflection (ctx : Ctx) (obj : Sphere)
    (sp : Spoint) (depth : ℕ) :
    shade ctx obj sp depth =
      (ctx.lights.map (light_contrib ctx obj sp)).sum +
        (if obj.mat.refl > 0.0 then
          obj.mat.refl • trace ctx ⟨sp.pos, RAY_MAG • sp.vref⟩ (depth + 1)
        else 0) := by
  unfold shade shade_body
  rw [shade_fold_eq ctx obj sp ctx.lights 0, zero_add]
  have hray : (⟨sp.pos, ⟨sp.vref.x * RAY_MAG, sp.vref.y * RAY_MAG,
      sp.vref.z * RAY_MAG⟩⟩ : Ray) = ⟨sp.pos, RAY_MAG • sp.vref⟩ := by
    congr 1
    ext <;> simp [mul_comm]
  rw [hray]
  by_cases h : obj.mat.refl > 0.0
  · simp only [h, if_true]
    ext <;> simp <;> ring
  · simp only [h, if_false]
    ext <;> simp

/-! ### Non-negativity of traced colors (C10) -/

/-- All three components of a color are nonnegative. -/
def Vec3Nonneg (v : Vec3) : Prop := 0 ≤ v.x ∧ 0 ≤ v.y ∧ 0 ≤ v.z

theorem zero_le_max_zero (x : ℝ) : (0 : ℝ) ≤ max x 0.0 := by
  rw [show (0.0 : ℝ) = 0 by norm_num]
  exact le_max_right x 0

theorem vec3_black_nonneg : Vec3Nonneg ⟨0.0, 0.0, 0.0⟩ :=
  ⟨by norm_num, by norm_num, by norm_num⟩

/-- Every sphere's material has nonnegative color components, specular power
and reflectivity (true of the scene hardcoded in `load_scene`). -/
def MaterialsNonneg (ctx : Ctx) : Prop :=
  ∀ o ∈ ctx.obj_list, 0 ≤ o.mat.col.x ∧ 0 ≤ o.mat.col.y ∧ 0 ≤ o.mat.col.z ∧
    0 ≤ o.mat.spow ∧ 0 ≤ o.mat.refl

theorem shade_light_step_nonneg (ctx : Ctx) {obj : Sphere} (sp : Spoint)
    {col : Vec3} (light : Vec3)
    (hmat : 0 ≤ obj.mat.col.x ∧ 0 ≤ obj.mat.col.y ∧ 0 ≤ obj.mat.col.z)
    (hcol : Vec3Nonneg col) :
    Vec3Nonneg (shade_light_step ctx obj sp col light) := by
  simp only [shade_light_step]
  split
  · exact hcol
  · have hidiff : (0 : ℝ) ≤ max (dotv sp.normal (normalize
        ⟨light.x - sp.pos.x, light.y - sp.pos.y, light.z - sp.pos.z⟩)) 0.0 :=
      zero_le_max_zero _
    have hispec : (0 : ℝ) ≤ if obj.mat.spow > 0.0 then
        (max (dotv sp.vref (normalize ⟨light.x - sp.pos.x, light.y - sp.pos.y,
          light.z - sp.pos.z⟩)) 0.0) ^ obj.mat.spow else 0.0 := by
      split
      · exact Real.rpow_nonneg (zero_le_max_zero _) _
      · norm_num
    exact ⟨add_nonneg (add_nonneg hcol.1 (mul_nonneg hidiff hmat.1)) hispec,
      add_nonneg (add_nonneg hcol.2.1 (mul_nonneg hidiff hmat.2.1)) hispec,
      add_nonneg (add_nonneg hcol.2.2 (mul_nonneg hidiff hmat.2.2)) hispec⟩

theorem shade_fold_nonneg (ctx : Ctx) {obj : Sphere} (sp : Spoint)
    (hmat : 0 ≤ obj.mat.col.x ∧ 0 ≤ obj.mat.col.y ∧ 0 ≤ obj.mat.col.z) :
    ∀ (ls : List Vec3) (c : Vec3), Vec3Nonneg c →
      Vec3Nonneg (ls.foldl (shade_light_step ctx obj sp) c)
  | [], c, hc => hc
  | light :: ls, c, hc => by
    rw [List.foldl_cons]
    exact shade_fold_nonneg ctx sp hmat ls _
      (shade_light_step_nonneg ctx sp light hmat hc)

theorem shade_body_nonneg (ctx : Ctx) {tr : Ray → Vec3} {obj : Sphere}
    (sp : Spoint)
    (hmat : 0 ≤ obj.mat.col.x ∧ 0 ≤ obj.mat.col.y ∧ 0 ≤ obj.mat.col.z)
    (htr : ∀ r : Ray, Vec3Nonneg (tr r)) :
    Vec3Nonneg (shade_body ctx tr obj sp) := by
  simp only [shade_body]
  have hcol := shade_fold_nonneg ctx sp hmat ctx.lights 0 (by
    exact ⟨le_refl 0, le_refl 0, le_refl 0⟩)
  split
  · rename_i hrefl
    have hr : (0 : ℝ) ≤ obj.mat.refl := by linarith
    have htr2 := htr ⟨sp.pos, ⟨sp.vref.x * RAY_MAG, sp.vref.y * RAY_MAG,
      sp.vref.z * RAY_MAG⟩⟩
    exact ⟨add_nonneg hcol.1 (mul_nonneg htr2.1 hr),
      add_nonneg hcol.2.1 (mul_nonneg htr2.2.1 hr),
      add_nonneg hcol.2.2 (mul_nonneg htr2.2.2 hr)⟩
  · exact hcol

theorem trace_nonneg_fuel (ctx : Ctx) (hm : MaterialsNonneg ctx) :
    ∀ (fuel : ℕ) (ray : Ray) (depth : ℕ), MAX_RAY_DEPTH - depth ≤ fuel →
      Vec3Nonneg (trace ctx ray depth)
  | 0, ray, depth, hfuel => by
    have hd : MAX_RAY_DEPTH ≤ depth := by omega
    rw [trace_of_depth_ge ctx ray depth hd]
    exact vec3_black_nonneg
  | fuel + 1, ray, depth, hfuel => by
    rcases Nat.lt_or_ge depth MAX_RAY_DEPTH with hd | hd
    · rw [trace_of_depth_lt ctx ray depth hd]
      rcases hfn : find_nearest ctx.obj_list ray with _ | ⟨obj, sp⟩
      · exact vec3_black_nonneg
      · obtain ⟨hmem, _, _⟩ := find_nearest_spec ctx.obj_list ray obj sp hfn
        have hmat := hm obj hmem
        exact shade_body_nonneg ctx sp ⟨hmat.1, hmat.2.1, hmat.2.2.1⟩
          (fun r => trace_nonneg_fuel ctx hm fuel r (depth + 1) (by omega))
    · rw [trace_of_depth_ge ctx ray depth hd]
      exact vec3_black_nonneg

/-- C10: if every sphere in the scene has nonnegative material color
components, specular power and reflectivity, then every color returned by
`trace` — and by `shade` for every sphere of the scene — has all three
components ≥ 0, at every ray, surface point and recursion depth; in particular
the channel values reaching the pixel-packing stage are never negative. -/
theorem trace_and_shade_nonneg (ctx : Ctx) (hm : MaterialsNonneg ctx) :
    (∀ (ray : Ray) (depth : ℕ), Vec3Nonneg (trace ctx ray depth)) ∧
    (∀ obj ∈ ctx.obj_list, ∀ (sp : Spoint) (depth : ℕ),
      Vec3Nonneg (shade ctx obj sp depth)) := by
  have htrace : ∀ (ray : Ray) (depth : ℕ), Vec3Nonneg (trace ctx ray depth) :=
    fun ray depth => trace_nonneg_fuel ctx hm (MAX_RAY_DEPTH - depth) ray depth
      (le_refl _)
  refine ⟨htrace, ?_⟩
  intro obj hmem sp depth
  have hmat := hm obj hmem
  exact shade_body_nonneg ctx sp ⟨hmat.1, hmat.2.1, hmat.2.2.1⟩
    (fun r => htrace r (depth + 1))

/-- Witness for C10 at the hardcoded scene state. -/
theorem trace_and_shade_nonneg_witness :
    MaterialsNonneg load_scene_ctx ∧
      ((∀ (ray : Ray) (depth : ℕ), Vec3Nonneg (trace load_scene_ctx ray depth)) ∧
      (∀ obj ∈ load_scene_ctx.obj_list, ∀ (sp : Spoint) (depth : ℕ),
        Vec3Nonneg (shade load_scene_ctx obj sp depth))) := by
  have hm : MaterialsNonneg load_scene_ctx := by
    simp only [MaterialsNonneg, load_scene_ctx, load_scene_objs,
      List.forall_mem_cons, List.not_mem_nil]
    norm_num
  exact ⟨hm, trace_and_shade_nonneg load_scene_ctx hm⟩

/-! ### Root selection in `ray_sphere` (C3) -/

/-- What `ray_sphere` guarantees about a reported surface point: the stored
distance is a root of the intersection quadratic with `dist ≥ ERR_MARGIN`;
it is `t2` (the smaller root) when `t2 ≥ ERR_MARGIN`, and `t1` otherwise;
in particular, when both roots lie in `[ERR_MARGIN, 1]` it is the smaller of
the two; and the stored position, normal and view reflection satisfy
`pos = orig + dist·dir`, `normal = (pos - center)/radius`,
`vref = normalize (reflect dir normal)`. -/
def RaySphereRootSpec (sph : Sphere) (ray : Ray) (sp : Spoint) : Prop :=
  (isect_a ray * sp.dist ^ 2 + isect_b sph ray * sp.dist + isect_c sph ray = 0) ∧
  ERR_MARGIN ≤ sp.dist ∧
  (ERR_MARGIN ≤ isect_t2 sph ray → sp.dist = isect_t2 sph ray) ∧
  (isect_t2 sph ray < ERR_MARGIN → sp.dist = isect_t1 sph ray) ∧
  ((ERR_MARGIN ≤ isect_t1 sph ray ∧ isect_t1 sph ray ≤ 1.0 ∧
      ERR_MARGIN ≤ isect_t2 sph ray ∧ isect_t2 sph ray ≤ 1.0) →
    sp.dist = min (isect_t1 sph ray) (isect_t2 sph ray)) ∧
  sp.pos = ⟨ray.orig.x + ray.dir.x * sp.dist, ray.orig.y + ray.dir.y * sp.dist,
    ray.orig.z + ray.dir.z * sp.dist⟩ ∧
  sp.normal = ⟨(sp.pos.x - sph.pos.x) / sph.rad, (sp.pos.y - sph.pos.y) / sph.rad,
    (sp.pos.z - sph.pos.z) / sph.rad⟩ ∧
  sp.vref = normalize (reflect ray.dir sp.normal)

theorem isect_root_of_sq (sph : Sphere) (ray : Ray) (ha : isect_a ray ≠ 0)
    (s : ℝ) (hs2 : s ^ 2 = isect_d sph ray) :
    isect_a ray * ((-isect_b sph ray + s) / (2.0 * isect_a ray)) ^ 2 +
      isect_b sph ray * ((-isect_b sph ray + s) / (2.0 * isect_a ray)) +
      isect_c sph ray = 0 := by
  have h2a : (2.0 : ℝ) * isect_a ray ≠ 0 := by
    intro hz
    apply ha
    have h2 : (2.0 : ℝ) ≠ 0 := by norm_num
    exact (mul_eq_zero.mp hz).resolve_left h2
  unfold isect_d at hs2
  field_simp
  nlinarith [hs2]

theorem isect_t1_root (sph : Sphere) (ray : Ray) (ha : isect_a ray ≠ 0)
    (hd : 0 ≤ isect_d sph ray) :
    isect_a ray * isect_t1 sph ray ^ 2 + isect_b sph ray * isect_t1 sph ray +
      isect_c sph ray = 0 := by
  unfold isect_t1
  exact isect_root_of_sq sph ray ha _ (Real.sq_sqrt hd)

theorem isect_t2_root (sph : Sphere) (ray : Ray) (ha : isect_a ray ≠ 0)
    (hd : 0 ≤ isect_d sph ray) :
    isect_a ray * isect_t2 sph ray ^ 2 + isect_b sph ray * isect_t2 sph ray +
      isect_c sph ray = 0 := by
  have ht : isect_t2 sph ray =
      (-isect_b sph ray + -Real.sqrt (isect_d sph ray)) / (2.0 * isect_a ray) := by
    unfold isect_t2
    ring
  rw [ht]
  exact isect_root_of_sq sph ray ha _ (by rw [neg_sq]; exact Real.sq_sqrt hd)

theorem isect_a_pos (ray : Ray) (ha : isect_a ray ≠ 0) : 0 < isect_a ray := by
  rcases lt_or_eq_of_le (by unfold isect_a; positivity : 0 ≤ isect_a ray) with h | h
  · exact h
  · exact absurd h.symm ha

theorem isect_t2_le_t1 (sph : Sphere) (ray : Ray) (ha : isect_a ray ≠ 0) :
    isect_t2 sph ray ≤ isect_t1 sph ray := by
  unfold isect_t1 isect_t2
  have h2a : (0 : ℝ) < 2.0 * isect_a ray := by
    have := isect_a_pos ray ha
    nlinarith
  rw [div_le_div_iff h2a h2a]
  nlinarith [Real.sqrt_nonneg (isect_d sph ray)]

/-- C3 (amended): for every sphere and every ray with nonzero direction for
which `ray_sphere` reports a hit with a surface point requested, the returned
parametric distance is a root `t` of the intersection quadratic with
`t ≥ ERR_MARGIN`; when the smaller root `t2` is at least `ERR_MARGIN` it is
chosen (in particular, when both roots are in `[ERR_MARGIN, 1]` the smaller is
chosen), and when `t2 < ERR_MARGIN` the larger root `t1` is returned — which
may exceed `1.0`, so `t ≤ 1.0` does not hold in general; the normal equals
`(hit_point - sphere.center) / radius` and the view reflection is the
normalization of `reflect(ray.direction, normal)`. -/
theorem ray_sphere_hit_root_spec (sph : Sphere) (ray : Ray) (sp : Spoint)
    (ha : isect_a ray ≠ 0) (h : ray_sphere sph ray = some sp) :
    RaySphereRootSpec sph ray sp := by
  unfold ray_sphere at h
  by_cases hd : isect_d sph ray < 0.0
  · rw [if_pos hd] at h
    cases h
  rw [if_neg hd] at h
  by_cases hrej : (isect_t1 sph ray < ERR_MARGIN ∧ isect_t2 sph ray < ERR_MARGIN) ∨
      (isect_t1 sph ray > 1.0 ∧ isect_t2 sph ray > 1.0)
  · rw [if_pos hrej] at h
    cases h
  rw [if_neg hrej] at h
  rw [Option.some_inj] at h
  subst h
  push_neg at hd
  have hd0 : 0 ≤ isect_d sph ray := by
    have h00 : (0.0 : ℝ) = 0 := by norm_num
    rw [h00] at hd
    exact hd
  have ht21 := isect_t2_le_t1 sph ray ha
  have ht1e : ERR_MARGIN ≤ isect_t1 sph ray := by
    by_contra hlt
    push_neg at hlt
    exact absurd (Or.inl ⟨hlt, lt_of_le_of_lt ht21 hlt⟩) hrej
  have hdist : isect_dist sph ray =
      if isect_t2 sph ray < ERR_MARGIN then isect_t1 sph ray
      else isect_t2 sph ray := by
    simp only [isect_dist]
    rw [if_neg (not_lt.mpr ht1e)]
    by_cases h2 : isect_t2 sph ray < ERR_MARGIN
    · rw [if_pos h2, if_neg (lt_irrefl _)]
    · rw [if_neg h2, if_neg (not_lt.mpr ht21)]
  refine ⟨?_, ?_, ?_, ?_, ?_, rfl, rfl, rfl⟩
  · show isect_a ray * isect_dist sph ray ^ 2 +
      isect_b sph ray * isect_dist sph ray + isect_c sph ray = 0
    rw [hdist]
    by_cases h2 : isect_t2 sph ray < ERR_MARGIN
    · rw [if_pos h2]
      exact isect_t1_root sph ray ha hd0
    · rw [if_neg h2]
      exact isect_t2_root sph ray ha hd0
  · show ERR_MARGIN ≤ isect_dist sph ray
    rw [hdist]
    by_cases h2 : isect_t2 sph ray < ERR_MARGIN
    · rw [if_pos h2]
      exact ht1e
    · rw [if_neg h2]
      exact not_lt.mp h2
  · intro h2
    show isect_dist sph ray = isect_t2 sph ray
    rw [hdist, if_neg (not_lt.mpr h2)]
  · intro h2
    show isect_dist sph ray = isect_t1 sph ray
    rw [hdist, if_pos h2]
  · rintro ⟨_, _, h2e, _⟩
    show isect_dist sph ray = min (isect_t1 sph ray) (isect_t2 sph ray)
    rw [hdist, if_neg (not_lt.mpr h2e), min_eq_right ht21]

/-- C3 counterexample geometry: a radius-2 sphere centered at the origin. -/
def cex_sphere : Sphere := ⟨⟨0, 0, 0⟩, 2, ⟨⟨1, 1, 1⟩, 0, 0⟩⟩

/-- C3 counterexample ray: unit direction, origin at the sphere's center. -/
def cex_ray : Ray := ⟨⟨0, 0, 0⟩, ⟨1, 0, 0⟩⟩

theorem cex_a : isect_a cex_ray = 1 := by
  norm_num [isect_a, cex_ray]

theorem cex_b : isect_b cex_sphere cex_ray = 0 := by
  norm_num [isect_b, cex_sphere, cex_ray]

theorem cex_c : isect_c cex_sphere cex_ray = -4 := by
  norm_num [isect_c, cex_sphere, cex_ray]

theorem cex_d : isect_d cex_sphere cex_ray = 16 := by
  unfold isect_d
  rw [cex_a, cex_b, cex_c]
  norm_num

theorem cex_sqrt : Real.sqrt (isect_d cex_sphere cex_ray) = 4 := by
  rw [cex_d, show (16 : ℝ) = 4 ^ 2 by norm_num,
    Real.sqrt_sq (by norm_num : (0 : ℝ) ≤ 4)]

theorem cex_t1 : isect_t1 cex_sphere cex_ray = 2 := by
  unfold isect_t1
  rw [cex_b, cex_a, cex_sqrt]
  norm_num

theorem cex_t2 : isect_t2 cex_sphere cex_ray = -2 := by
  unfold isect_t2
  rw [cex_b, cex_a, cex_sqrt]
  norm_num

theorem cex_dist : isect_dist cex_sphere cex_ray = 2 := by
  simp only [isect_dist]
  rw [cex_t1, cex_t2]
  norm_num [ERR_MARGIN]

theorem cex_pos : isect_pos cex_sphere cex_ray = ⟨2, 0, 0⟩ := by
  unfold isect_pos
  rw [cex_dist]
  norm_num [cex_ray]

theorem cex_normal : isect_normal cex_sphere cex_ray = ⟨1, 0, 0⟩ := by
  unfold isect_normal
  rw [cex_pos]
  norm_num [cex_sphere]

theorem cex_vref : normalize (reflect cex_ray.dir ⟨1, 0, 0⟩) = ⟨-1, 0, 0⟩ := by
  have hrefl : reflect cex_ray.dir ⟨1, 0, 0⟩ = ⟨-1, 0, 0⟩ := by
    norm_num [reflect, cex_ray]
  rw [hrefl]
  simp only [normalize]
  norm_num [dotv, Real.sqrt_one]

/-- C3 counterexample: for a ray starting at the center of a radius-2 sphere,
the roots of the intersection quadratic are `2` and `-2` — neither lies in
`[ERR_MARGIN, 1.0]` — yet `ray_sphere` reports a hit and stores distance `2`,
violating the claimed `epsilon ≤ t ≤ 1.0` (and the claimed "only a valid root
is used"). -/
theorem ray_sphere_dist_gt_one_counterexample :
    ray_sphere cex_sphere cex_ray =
      some ⟨⟨2, 0, 0⟩, ⟨1, 0, 0⟩, ⟨-1, 0, 0⟩, 2⟩ ∧
    isect_t1 cex_sphere cex_ray = 2 ∧ isect_t2 cex_sphere cex_ray = -2 ∧
    ¬((2 : ℝ) ≤ 1.0) := by
  refine ⟨?_, cex_t1, cex_t2, by norm_num⟩
  unfold ray_sphere
  rw [if_neg (by rw [cex_d]; norm_num)]
  rw [if_neg (by rw [cex_t1, cex_t2]; norm_num [ERR_MARGIN])]
  rw [cex_normal, cex_pos, cex_dist, cex_vref]

/-- C3 witness geometry: unit sphere at the origin. -/
def wit_sphere : Sphere := ⟨⟨0, 0, 0⟩, 1, ⟨⟨1, 1, 1⟩, 0, 0⟩⟩

/-- C3 witness ray: from `(0,0,-2)` toward the sphere, scaled so both roots
lie in `[ERR_MARGIN, 1]`. -/
def wit_ray : Ray := ⟨⟨0, 0, -2⟩, ⟨0, 0, 4⟩⟩

/-- The surface point `ray_sphere` computes for the witness inputs. -/
noncomputable def wit_sp : Spoint := ⟨⟨0, 0, -1⟩, ⟨0, 0, -1⟩, ⟨0, 0, -1⟩, 1 / 4⟩

theorem wit_a : isect_a wit_ray = 16 := by
  norm_num [isect_a, wit_ray]

theorem wit_b : isect_b wit_sphere wit_ray = -16 := by
  norm_num [isect_b, wit_sphere, wit_ray]

theorem wit_c : isect_c wit_sphere wit_ray = 3 := by
  norm_num [isect_c, wit_sphere, wit_ray]

theorem wit_d : isect_d wit_sphere wit_ray = 64 := by
  unfold isect_d
  rw [wit_a, wit_b, wit_c]
  norm_num

theorem wit_sqrt : Real.sqrt (isect_d wit_sphere wit_ray) = 8 := by
  rw [wit_d, show (64 : ℝ) = 8 ^ 2 by norm_num,
    Real.sqrt_sq (by norm_num : (0 : ℝ) ≤ 8)]

theorem wit_t1 : isect_t1 wit_sphere wit_ray = 3 / 4 := by
  unfold isect_t1
  rw [wit_b, wit_a, wit_sqrt]
  norm_num

theorem wit_t2 : isect_t2 wit_sphere wit_ray = 1 / 4 := by
  unfold isect_t2
  rw [wit_b, wit_a, wit_sqrt]
  norm_num

theorem wit_dist : isect_dist wit_sphere wit_ray = 1 / 4 := by
  simp only [isect_dist]
  rw [wit_t1, wit_t2]
  norm_num [ERR_MARGIN]

theorem wit_pos : isect_pos wit_sphere wit_ray = ⟨0, 0, -1⟩ := by
  unfold isect_pos
  rw [wit_dist]
  norm_num [wit_ray]

theorem wit_normal : isect_normal wit_sphere wit_ray = ⟨0, 0, -1⟩ := by
  unfold isect_normal
  rw [wit_pos]
  norm_num [wit_sphere]

theorem wit_vref : normalize (reflect wit_ray.dir ⟨0, 0, -1⟩) = ⟨0, 0, -1⟩ := by
  have hrefl : reflect wit_ray.dir ⟨0, 0, -1⟩ = ⟨0, 0, -4⟩ := by
    norm_num [reflect, wit_ray]
  rw [hrefl]
  simp only [normalize]
  rw [show dotv ⟨0, 0, -4⟩ ⟨0, 0, -4⟩ = 4 ^ 2 by norm_num [dotv],
    Real.sqrt_sq (by norm_num : (0 : ℝ) ≤ 4)]
  norm_num

theorem wit_hit : ray_sphere wit_sphere wit_ray = some wit_sp := by
  unfold ray_sphere
  rw [if_neg (by rw [wit_d]; norm_num)]
  rw [if_neg (by rw [wit_t1, wit_t2]; norm_num [ERR_MARGIN])]
  rw [wit_normal, wit_pos, wit_dist, wit_vref]
  rfl

/-- Witness for the amended C3 at the concrete witness sphere/ray/hit. -/
theorem ray_sphere_hit_root_spec_witness :
    isect_a wit_ray ≠ 0 ∧ ray_sphere wit_sphere wit_ray = some wit_sp ∧
      RaySphereRootSpec wit_sphere wit_ray wit_sp :=
  have hane : isect_a wit_ray ≠ 0 := by rw [wit_a]; norm_num
  ⟨hane, wit_hit, ray_sphere_hit_root_spec wit_sphere wit_ray wit_sp hane wit_hit⟩

/-! ### `render_scanline` pixel computation (C7) -/

theorem and_255_eq_self {x : ℕ} (h : x ≤ 255) : x &&& 0xff = x := by
  rw [show (0xff : ℕ) = 2 ^ 8 - 1 by norm_num]
  exact Nat.and_pow_two_sub_one_of_lt_two_pow (lt_of_le_of_lt h (by norm_num))

theorem sample_fold_eq (g : ℕ → Vec3) :
    ∀ (n : ℕ) (acc : ℝ × ℝ × ℝ),
      (List.range n).foldl
        (fun acc s => (acc.1 + (g s).x, acc.2.1 + (g s).y, acc.2.2 + (g s).z)) acc =
      (acc.1 + ((List.range n).map (fun s => (g s).x)).sum,
       acc.2.1 + ((List.range n).map (fun s => (g s).y)).sum,
       acc.2.2 + ((List.range n).map (fun s => (g s).z)).sum)
  | 0, acc => by simp
  | n + 1, acc => by
    rw [List.range_succ, List.foldl_append, List.foldl_cons, List.foldl_nil,
      sample_fold_eq g n acc]
    simp only [List.map_append, List.sum_append, List.map_cons, List.sum_cons,
      List.map_nil, List.sum_nil]
    refine Prod.ext ?_ (Prod.ext ?_ ?_) <;> simp <;> ring

theorem foldl_update_at (g : ℕ → ℕ) (base : ℕ) :
    ∀ (n : ℕ) (fb : ℕ → ℕ) (i : ℕ), i < n →
      ((List.range n).foldl (fun f j => Function.update f (base + j) (g j)) fb)
        (base + i) = g i
  | 0, _, i, hi => absurd hi (by omega)
  | n + 1, fb, i, hi => by
    rw [List.range_succ, List.foldl_append, List.foldl_cons, List.foldl_nil]
    rcases Nat.lt_or_ge i n with h | h
    · rw [Function.update_noteq (by omega)]
      exact foldl_update_at g base n fb i h
    · have hin : i = n := by omega
      subst hin
      rw [Function.update_same]

theorem foldl_update_out (g : ℕ → ℕ) (base : ℕ) :
    ∀ (n : ℕ) (fb : ℕ → ℕ) (q : ℕ), (∀ i, i < n → q ≠ base + i) →
      ((List.range n).foldl (fun f j => Function.update f (base + j) (g j)) fb) q
        = fb q
  | 0, _, _, _ => rfl
  | n + 1, fb, q, hq => by
    rw [List.range_succ, List.foldl_append, List.foldl_cons, List.foldl_nil]
    rw [Function.update_noteq (hq n (by omega))]
    exact foldl_update_out g base n fb q (fun i hi => hq i (by omega))

theorem render_scanline_at (ctx : Ctx) (xsz ysz sl samples : ℕ) (fb : ℕ → ℕ)
    (i : ℕ) (hi : i < xsz) :
    render_scanline ctx xsz ysz sl fb samples (sl * xsz + i) =
      render_pixel ctx i sl samples := by
  unfold render_scanline
  exact foldl_update_at (fun j => render_pixel ctx j sl samples) (sl * xsz)
    xsz fb i hi

theorem render_scanline_out (ctx : Ctx) (xsz ysz sl samples : ℕ) (fb : ℕ → ℕ)
    (q : ℕ) (hq : ∀ i, i < xsz → q ≠ sl * xsz + i) :
    render_scanline ctx xsz ysz sl fb samples q = fb q := by
  unfold render_scanline
  exact foldl_update_out (fun j => render_pixel ctx j sl samples) (sl * xsz)
    xsz fb q hq

/-- The per-pixel value described by the spec for `render_scanline`: the
average over `samples` traced primary-ray colors, each channel clamped to
`[0, 1]`, scaled to `[0, 255]`, and the three channels packed by the
red/green/blue shifts. -/
noncomputable def spec_scanline_pixel (ctx : Ctx) (i sl samples : ℕ) : ℕ :=
  let avg := fun proj : Vec3 → ℝ =>
    (((List.range samples).map
      (fun s => proj (trace ctx (get_primary_ray ctx i sl s) 0))).sum) / (samples : ℝ)
  let clamp := fun v : ℝ => min (max v 0) 1
  ((Int.toNat ⌊clamp (avg (fun c => c.x)) * 255.0⌋) <<< RSHIFT) |||
    ((Int.toNat ⌊clamp (avg (fun c => c.y)) * 255.0⌋) <<< GSHIFT) |||
    ((Int.toNat ⌊clamp (avg (fun c => c.z)) * 255.0⌋) <<< BSHIFT)

theorem channel_byte_eq (v : ℝ) (hv : 0 ≤ v) :
    Int.toNat ⌊min v 1.0 * 255.0⌋ &&& 0xff = Int.toNat ⌊min (max v 0) 1 * 255.0⌋ := by
  have h1 : max v 0 = v := max_eq_left hv
  have h10 : (1.0 : ℝ) = 1 := by norm_num
  rw [h1, ← h10]
  apply and_255_eq_self
  have hle : min v 1.0 * 255.0 ≤ 255 := by
    have := min_le_right v 1.0
    nlinarith
  have hfl : ⌊min v 1.0 * 255.0⌋ ≤ 255 := by
    have h2 : ⌊min v 1.0 * 255.0⌋ ≤ ⌊(255 : ℝ)⌋ := Int.floor_le_floor hle
    simpa using h2
  omega

/-- C7: for every row, width and `samples ≥ 1` (given the nonnegative
materials of the loaded scene, so channels are never negative),
`render_scanline` stores at slot `row * width + column` exactly the average of
the `samples` traced primary-ray colors, clamped per channel to `[0, 1]`,
scaled to `[0, 255]`, and packed with the red/green/blue shifts. -/
theorem render_scanline_pixel_spec (ctx : Ctx) (xsz ysz sl samples : ℕ)
    (fb : ℕ → ℕ) (i : ℕ) (hm : MaterialsNonneg ctx) (hs : 1 ≤ samples)
    (hi : i < xsz) :
    render_scanline ctx xsz ysz sl fb samples (sl * xsz + i) =
      spec_scanline_pixel ctx i sl samples := by
  rw [render_scanline_at ctx xsz ysz sl samples fb i hi]
  simp only [render_pixel, spec_scanline_pixel]
  rw [sample_fold_eq (fun s => trace ctx (get_primary_ray ctx i sl s) 0) samples
    (0.0, 0.0, 0.0)]
  have hnn : ∀ proj : Vec3 → ℝ, (∀ v, Vec3Nonneg v → 0 ≤ proj v) →
      (0 : ℝ) ≤ ((List.range samples).map
        (fun s => proj (trace ctx (get_primary_ray ctx i sl s) 0))).sum /
          (samples : ℝ) := by
    intro proj hproj
    apply div_nonneg _ (by positivity)
    apply List.sum_nonneg
    intro x hx
    obtain ⟨s, _, rfl⟩ := List.mem_map.mp hx
    exact hproj _ (trace_nonneg_fuel ctx hm MAX_RAY_DEPTH _ 0 (by omega))
  have hsne : ((samples : ℝ)) ≠ 0 := by
    have : (0 : ℝ) < (samples : ℝ) := by exact_mod_cast hs
    linarith
  have hxc : (0.0 + ((List.range samples).map
      (fun s => (trace ctx (get_primary_ray ctx i sl s) 0).x)).sum) *
        (1.0 / (samples : ℝ)) =
      ((List.range samples).map
        (fun s => (trace ctx (get_primary_ray ctx i sl s) 0).x)).sum /
          (samples : ℝ) := by
    rw [show (0.0 : ℝ) = 0 by norm_num, zero_add, show (1.0 : ℝ) = 1 by norm_num]
    ring
  have hyc : (0.0 + ((List.range samples).map
      (fun s => (trace ctx (get_primary_ray ctx i sl s) 0).y)).sum) *
        (1.0 / (samples : ℝ)) =
      ((List.range samples).map
        (fun s => (trace ctx (get_primary_ray ctx i sl s) 0).y)).sum /
          (samples : ℝ) := by
    rw [show (0.0 : ℝ) = 0 by norm_num, zero_add, show (1.0 : ℝ) = 1 by norm_num]
    ring
  have hzc : (0.0 + ((List.range samples).map
      (fun s => (trace ctx (get_primary_ray ctx i sl s) 0).z)).sum) *
        (1.0 / (samples : ℝ)) =
      ((List.range samples).map
        (fun s => (trace ctx (get_primary_ray ctx i sl s) 0).z)).sum /
          (samples : ℝ) := by
    rw [show (0.0 : ℝ) = 0 by norm_num, zero_add, show (1.0 : ℝ) = 1 by norm_num]
    ring
  rw [hxc, hyc, hzc]
  rw [channel_byte_eq _ (hnn _ (fun v hv => hv.1)),
    channel_byte_eq _ (hnn _ (fun v hv => hv.2.1)),
    channel_byte_eq _ (hnn _ (fun v hv => hv.2.2))]

/-- Witness for C7: the loaded scene, a 1×1 image, one sample. -/
theorem render_scanline_pixel_spec_witness :
    MaterialsNonneg load_scene_ctx ∧ 1 ≤ 1 ∧ 0 < 1 ∧
      render_scanline load_scene_ctx 1 1 0 (fun _ => 0) 1 (0 * 1 + 0) =
        spec_scanline_pixel load_scene_ctx 0 0 1 := by
  have hm : MaterialsNonneg load_scene_ctx := by
    simp only [MaterialsNonneg, load_scene_ctx, load_scene_objs,
      List.forall_mem_cons, List.not_mem_nil]
    norm_num
  exact ⟨hm, le_refl 1, Nat.one_pos,
    render_scanline_pixel_spec load_scene_ctx 1 1 0 1 (fun _ => 0) 0 hm
      (le_refl 1) Nat.one_pos⟩

/-! ### One-worker multithreaded render vs sequential render (C2) -/

theorem thread_func_zero_start (ctx : Ctx) (cnt : ℕ) (fb : ℕ → ℕ) :
    thread_func ctx 0 cnt fb =
      (List.range cnt).foldl
        (fun fb r => render_scanline ctx ctx.xres ctx.yres r fb
          ctx.rays_per_pixel) fb := by
  simp only [thread_func, Nat.add_zero]

theorem thread_rows_at (ctx : Ctx) :
    ∀ (cnt : ℕ) (fb : ℕ → ℕ) (j i : ℕ), j < cnt → i < ctx.xres →
      ((List.range cnt).foldl
        (fun fb r => render_scanline ctx ctx.xres ctx.yres r fb
          ctx.rays_per_pixel) fb) (j * ctx.xres + i) =
        render_pixel ctx i j ctx.rays_per_pixel
  | 0, _, j, i, hj, _ => absurd hj (by omega)
  | cnt + 1, fb, j, i, hj, hi => by
    rw [List.range_succ, List.foldl_append, List.foldl_cons, List.foldl_nil]
    rcases Nat.lt_or_ge j cnt with h | h
    · rw [render_scanline_out ctx ctx.xres ctx.yres cnt ctx.rays_per_pixel _ _ ?hne]
      case hne =>
        intro i2 hi2
        have h1 : (j + 1) * ctx.xres ≤ cnt * ctx.xres :=
          Nat.mul_le_mul_right _ (by omega)
        have h2 : j * ctx.xres + i < (j + 1) * ctx.xres := by
          rw [Nat.succ_mul]
          omega
        omega
      exact thread_rows_at ctx cnt fb j i h hi
    · have hjc : j = cnt := by omega
      subst hjc
      exact render_scanline_at ctx ctx.xres ctx.yres j ctx.rays_per_pixel _ i hi

theorem render_succ (ctx : Ctx) (xsz ysz samples : ℕ) :
    render ctx xsz (ysz + 1) samples =
      render ctx xsz ysz samples ++
        (List.range xsz).map (fun i => render_pixel ctx i ysz samples) := by
  unfold render
  rw [List.range_succ, List.map_append, List.flatten_append]
  simp

theorem render_length (ctx : Ctx) (xsz samples : ℕ) :
    ∀ ysz : ℕ, (render ctx xsz ysz samples).length = ysz * xsz
  | 0 => by simp [render]
  | ysz + 1 => by
    rw [render_succ, List.length_append, render_length ctx xsz samples ysz,
      List.length_map, List.length_range]
    ring

theorem getD_map_range (f : ℕ → ℕ) (n i : ℕ) (hi : i < n) :
    ((List.range n).map f).getD i 0 = f i := by
  rw [List.getD_eq_getElem?_getD, List.getElem?_map, List.getElem?_range hi]
  rfl

theorem render_getD (ctx : Ctx) (xsz samples : ℕ) :
    ∀ (ysz j i : ℕ), j < ysz → i < xsz →
      (render ctx xsz ysz samples).getD (j * xsz + i) 0 =
        render_pixel ctx i j samples
  | 0, j, _, hj, _ => absurd hj (by omega)
  | ysz + 1, j, i, hj, hi => by
    rw [render_succ]
    rcases Nat.lt_or_ge j ysz with h | h
    · rw [List.getD_append]
      · exact render_getD ctx xsz samples ysz j i h hi
      · rw [render_length]
        have h1 : (j + 1) * xsz ≤ ysz * xsz := Nat.mul_le_mul_right _ (by omega)
        have h2 : j * xsz + i < (j + 1) * xsz := by
          rw [Nat.succ_mul]
          omega
        omega
    · have hjc : j = ysz := by omega
      subst hjc
      rw [List.getD_append_right]
      · rw [render_length]
        have : j * xsz + i - j * xsz = i := by omega
        rw [this]
        exact getD_map_range _ xsz i hi
      · rw [render_length]
        omega

/-- C2: with one worker, `cray_mt`'s partition assigns the single worker the
whole range `[0, yres)`, and `thread_func` run on that range writes, at every
pixel index `p < xres * yres`, exactly the packed 32-bit value that the
single-threaded `render` produces at position `p` of its output, for the same
scene state and identically seeded jitter tables (both live in `ctx`). -/
theorem mt_one_worker_matches_render (ctx : Ctx) (fb : ℕ → ℕ) (p : ℕ)
    (hp : p < ctx.xres * ctx.yres) :
    cray_mt_ranges ctx.yres 1 = [(0, (ctx.yres : ℤ))] ∧
    thread_func ctx 0 ctx.yres fb p =
      (render ctx ctx.xres ctx.yres ctx.rays_per_pixel).getD p 0 := by
  constructor
  · have hper : sl_per_thread ctx.yres 1 = (ctx.yres : ℚ) := by
      simp [sl_per_thread]
    simp [cray_mt_ranges, hper, partition_loop, fix_last, Int.floor_natCast]
  · have hW : 0 < ctx.xres := by
      rcases Nat.eq_zero_or_pos ctx.xres with h | h
      · rw [h] at hp
        omega
      · exact h
    have hdecomp : (p / ctx.xres) * ctx.xres + p % ctx.xres = p := by
      rw [Nat.mul_comm]
      exact Nat.div_add_mod p ctx.xres
    have hi : p % ctx.xres < ctx.xres := Nat.mod_lt _ hW
    have hj : p / ctx.xres < ctx.yres := Nat.div_lt_of_lt_mul hp
    rw [thread_func_zero_start, ← hdecomp,
      thread_rows_at ctx ctx.yres fb (p / ctx.xres) (p % ctx.xres) hj hi,
      render_getD ctx ctx.xres ctx.rays_per_pixel ctx.yres (p / ctx.xres)
        (p % ctx.xres) hj hi]

/-- Witness for C2 at the hardcoded scene state and pixel index 0. -/
theorem mt_one_worker_matches_render_witness :
    0 < load_scene_ctx.xres * load_scene_ctx.yres ∧
      (cray_mt_ranges load_scene_ctx.yres 1 = [(0, (load_scene_ctx.yres : ℤ))] ∧
      thread_func load_scene_ctx 0 load_scene_ctx.yres (fun _ => 0) 0 =
        (render load_scene_ctx load_scene_ctx.xres load_scene_ctx.yres
          load_scene_ctx.rays_per_pixel).getD 0 0) := by
  have hp : 0 < load_scene_ctx.xres * load_scene_ctx.yres := by
    norm_num [load_scene_ctx]
  exact ⟨hp, mt_one_worker_matches_render load_scene_ctx (fun _ => 0) 0 hp⟩

end CRay
